import Mathlib

/-!
# Verification of the Mauna Loa CO2 Gaussian-process fit

Shallow embedding of the notebook `gp_mauna_loa.ipynb`: the composite kernel
built by `build_gp` (squared-exponential, periodic and rational-quadratic
components from tinygp), the training covariance matrix with the diagonal
noise term, the negative marginal log-likelihood objective, the data
filtering pipeline, and the GP conditioning formula.  Machine floats are
modelled by real numbers; the parts of the pipeline supplied by external
libraries (tinygp's `log_probability` and `condition`, jax's
`value_and_grad`) are modelled from the spec's formulas, as noted on the
corresponding definitions.
-/

open Matrix
open scoped BigOperators

noncomputable section

namespace GPMaunaLoa

/-- tinygp `kernels.ExpSquared(scale)` evaluated at lag `r`:
`exp(-r² / (2·scale²))`. -/
def expSquared (scale r : ℝ) : ℝ := Real.exp (-(r ^ 2) / (2 * scale ^ 2))

/-- tinygp `kernels.ExpSineSquared(scale, gamma)` evaluated at lag `r`:
`exp(-gamma · sin²(π r / scale))`. -/
def expSineSquared (scale gamma r : ℝ) : ℝ :=
  Real.exp (-gamma * Real.sin (Real.pi * r / scale) ^ 2)

/-- tinygp `kernels.RationalQuadratic(alpha, scale)` evaluated at lag `r`:
`(1 + r² / (2·alpha·scale²))^(-alpha)`. -/
def rationalQuadratic (alpha scale r : ℝ) : ℝ :=
  (1 + r ^ 2 / (2 * alpha * scale ^ 2)) ^ (-alpha)

/-- The positive parameters of `build_gp`: `jnp.exp(theta[:-1])`, the
exponentials of the first 12 entries of the hyperparameter vector. -/
def posParam (theta : Fin 13 → ℝ) (i : Fin 12) : ℝ := Real.exp (theta i.castSucc)

/-- The composite kernel `k1 + k2 + k3 + k4` constructed in `build_gp`,
as a function of the lag `r = x - x'`. -/
def kernelFn (theta : Fin 13 → ℝ) (r : ℝ) : ℝ :=
  posParam theta 0 ^ 2 * expSquared (posParam theta 1) r
    + posParam theta 2 ^ 2 * expSquared (posParam theta 3) r
        * expSineSquared (posParam theta 4) (posParam theta 5) r
    + posParam theta 6 ^ 2 * rationalQuadratic (posParam theta 7) (posParam theta 8) r
    + posParam theta 9 ^ 2 * expSquared (posParam theta 10) r

/-- A tinygp `GaussianProcess`: a kernel, training inputs, a scalar diagonal
noise variance and a constant mean. -/
structure GaussianProcess (n : ℕ) where
  kernel : ℝ → ℝ → ℝ
  X : Fin n → ℝ
  diag : ℝ
  mean : ℝ

/-- Shallow embedding of the notebook's `build_gp(theta, X)`: the mean is the
last entry of `theta`, the remaining entries are exponentiated, the composite
kernel `k1 + k2 + k3 + k4` is formed, and the model carries the diagonal
noise `theta[11]²` (post-exponentiation). -/
def build_gp {n : ℕ} (theta : Fin 13 → ℝ) (X : Fin n → ℝ) : GaussianProcess n :=
  { kernel := fun x x' => kernelFn theta (x - x')
    X := X
    diag := posParam theta 11 ^ 2
    mean := theta 12 }

/-- The training covariance matrix `Σ = K(X, X) + diag(noise)`: the kernel
Gram matrix with the noise variance added only to the diagonal entries. -/
def covMatrix {n : ℕ} (gp : GaussianProcess n) : Matrix (Fin n) (Fin n) ℝ :=
  Matrix.of fun i j => gp.kernel (gp.X i) (gp.X j) + if i = j then gp.diag else 0

/-- The noise-free kernel Gram matrix of the composite kernel of `build_gp`
on the inputs `X`. -/
def gramMatrix {n : ℕ} (theta : Fin 13 → ℝ) (X : Fin n → ℝ) :
    Matrix (Fin n) (Fin n) ℝ :=
  Matrix.of fun i j => kernelFn theta (X i - X j)

/-- Modelled from the spec: tinygp's `GaussianProcess.log_probability` is not
part of this repository.  Per the spec it "computes the log-density of
`y - mean` under `N(0, Σ)`" with `Σ = K(X,X) + diag(noise)`, i.e. the
multivariate normal log-density
`-½ (y-μ)ᵀ Σ⁻¹ (y-μ) - ½ log det Σ - (n/2) log 2π`. -/
def log_probability {n : ℕ} (gp : GaussianProcess n) (y : Fin n → ℝ) : ℝ :=
  (-(1 / 2) * ((fun i => y i - gp.mean) ⬝ᵥ ((covMatrix gp)⁻¹ *ᵥ fun i => y i - gp.mean)))
    - (1 / 2) * Real.log (covMatrix gp).det - (n / 2 : ℝ) * Real.log (2 * Real.pi)

/-- Shallow embedding of the notebook's `neg_log_likelihood(theta, X, y)`:
build the model from `theta` and return minus its log-probability at `y`. -/
def neg_log_likelihood {n : ℕ} (theta : Fin 13 → ℝ) (X y : Fin n → ℝ) : ℝ :=
  -(log_probability (build_gp theta X) y)

/-- Modelled from the spec: `jax.value_and_grad` is not part of this
repository.  Per the spec the objective "returns
`(negative_log_likelihood, gradient_wrt_θ)`": the value of the function
together with its (Fréchet) derivative at the evaluation point. -/
def value_and_grad (f : (Fin 13 → ℝ) → ℝ) (x : Fin 13 → ℝ) :
    ℝ × ((Fin 13 → ℝ) →L[ℝ] ℝ) :=
  (f x, fderiv ℝ f x)

/-- Shallow embedding of the notebook's objective
`obj = jax.jit(jax.value_and_grad(neg_log_likelihood))`. -/
def obj {n : ℕ} (theta : Fin 13 → ℝ) (X y : Fin n → ℝ) :
    ℝ × ((Fin 13 → ℝ) →L[ℝ] ℝ) :=
  value_and_grad (fun th => neg_log_likelihood th X y) theta

/-- The composite kernel exactly as the spec words it:
`a0²·SE(ℓ0) + a1²·SE(ℓ1)·Per(p,γ) + a2²·RQ(α,ℓ2) + a3²·SE(ℓ3)` with the
amplitudes and scales the exponentials of `theta[0..10]` in order. -/
def specKernel (theta : Fin 13 → ℝ) (r : ℝ) : ℝ :=
  Real.exp (theta 0) ^ 2 * expSquared (Real.exp (theta 1)) r
    + Real.exp (theta 2) ^ 2 * expSquared (Real.exp (theta 3)) r
        * expSineSquared (Real.exp (theta 4)) (Real.exp (theta 5)) r
    + Real.exp (theta 6) ^ 2 * rationalQuadratic (Real.exp (theta 7)) (Real.exp (theta 8)) r
    + Real.exp (theta 9) ^ 2 * expSquared (Real.exp (theta 10)) r

/-- The spec's training covariance: the composite kernel on all pairs, plus
the noise variance `σ² = exp(theta[11])²` on the diagonal entries only. -/
def specTrainCov {n : ℕ} (theta : Fin 13 → ℝ) (X : Fin n → ℝ) :
    Matrix (Fin n) (Fin n) ℝ :=
  Matrix.of fun i j =>
    specKernel theta (X i - X j) + if i = j then Real.exp (theta 11) ^ 2 else 0

/-- A kernel is positive semi-definite when every Gram quadratic form on every
finite point set is nonnegative. -/
def IsPSDKernel (k : ℝ → ℝ → ℝ) : Prop :=
  ∀ (n : ℕ) (x c : Fin n → ℝ), 0 ≤ ∑ i, ∑ j, c i * c j * k (x i) (x j)

/-- A kernel expressible by a finite family of feature maps,
`k x y = ∑ a, f a x * f a y`. -/
def IsFeatSum (k : ℝ → ℝ → ℝ) : Prop :=
  ∃ (m : ℕ) (f : Fin m → ℝ → ℝ), ∀ x y, k x y = ∑ a, f a x * f a y

/-- One raw data coordinate: a machine float that is either finite (carrying
a real value) or non-finite (NaN/Inf), modelled as an optional real. -/
abbrev RawVal : Type := Option ℝ

/-- The notebook's per-sample validity test
`jnp.isfinite(t) & jnp.isfinite(y) & (t < 1996)` for one raw (t, y) pair
(a comparison against a non-finite float is false). -/
def sampleMask (ty : RawVal × RawVal) : Bool :=
  ty.1.isSome && ty.2.isSome && decide (ty.1.getD 0 < 1996)

/-- The notebook's elementwise mask `m` over the two raw columns. -/
def rawMask (ts ys : List RawVal) : List Bool :=
  List.zipWith (fun a b => sampleMask (a, b)) ts ys

/-- numpy boolean-mask selection `v[m]`. -/
def boolSelect {α : Type} : List α → List Bool → List α
  | a :: as, b :: bs => if b then a :: boolSelect as bs else boolSelect as bs
  | _, _ => []

/-- Helper for stride slicing: keep the head when the counter is 0, restart
the counter at 3; otherwise drop the head and count down. -/
def strideAux {α : Type} : ℕ → List α → List α
  | _, [] => []
  | 0, a :: as => a :: strideAux 3 as
  | k + 1, _ :: as => strideAux k as

/-- numpy stride slicing `v[::4]`: every 4th element, starting at index 0. -/
def stride4 {α : Type} (l : List α) : List α := strideAux 0 l

/-- The notebook's training inputs `t[m][::4]`. -/
def trainT (ts ys : List RawVal) : List RawVal :=
  stride4 (boolSelect ts (rawMask ts ys))

/-- The notebook's training observations `y[m][::4]` (same mask `m`). -/
def trainY (ts ys : List RawVal) : List RawVal :=
  stride4 (boolSelect ys (rawMask ts ys))

/-- The spec's description of the training set: every 4th element (stride 4,
starting at index 0) of the raw (t, y) pairs that are finite in both
coordinates and satisfy `t < 1996`, in their original order. -/
def specTrainPairs (ts ys : List RawVal) : List (RawVal × RawVal) :=
  stride4 ((ts.zip ys).filter sampleMask)

/-- Modelled from the spec: tinygp's `condition` is not part of this
repository.  Per the spec the posterior (conditional) mean at new inputs is
`μ* = mean(X*) + K(X*,X)·Σ⁻¹·(y - mean(X))`. -/
def conditionMean {n m : ℕ} (gp : GaussianProcess n) (y : Fin n → ℝ)
    (Xs : Fin m → ℝ) : Fin m → ℝ :=
  fun s => gp.mean +
    (fun j => gp.kernel (Xs s) (gp.X j)) ⬝ᵥ ((covMatrix gp)⁻¹ *ᵥ fun i => y i - gp.mean)

end GPMaunaLoa

namespace GPMaunaLoa

theorem isFeatSum_of_feature (f : ℝ → ℝ) : IsFeatSum fun x y => f x * f y := by
  refine ⟨1, fun _ => f, fun x y => ?_⟩
  rw [Fin.sum_univ_one]

theorem isFeatSum_const {c : ℝ} (hc : 0 ≤ c) : IsFeatSum fun _ _ => c := by
  refine ⟨1, fun _ _ => Real.sqrt c, fun x y => ?_⟩
  rw [Fin.sum_univ_one, Real.mul_self_sqrt hc]

theorem isFeatSum_add {k1 k2 : ℝ → ℝ → ℝ} (h1 : IsFeatSum k1) (h2 : IsFeatSum k2) :
    IsFeatSum fun x y => k1 x y + k2 x y := by
  obtain ⟨m1, f1, hf1⟩ := h1
  obtain ⟨m2, f2, hf2⟩ := h2
  refine ⟨m1 + m2, Fin.append f1 f2, fun x y => ?_⟩
  dsimp only
  rw [hf1 x y, hf2 x y, Fin.sum_univ_add]
  simp only [Fin.append_left, Fin.append_right]

theorem isFeatSum_mul {k1 k2 : ℝ → ℝ → ℝ} (h1 : IsFeatSum k1) (h2 : IsFeatSum k2) :
    IsFeatSum fun x y => k1 x y * k2 x y := by
  obtain ⟨m1, f1, hf1⟩ := h1
  obtain ⟨m2, f2, hf2⟩ := h2
  refine ⟨m1 * m2, fun a t =>
    f1 (finProdFinEquiv.symm a).1 t * f2 (finProdFinEquiv.symm a).2 t, fun x y => ?_⟩
  have hstep : (∑ a : Fin (m1 * m2),
      (f1 (finProdFinEquiv.symm a).1 x * f2 (finProdFinEquiv.symm a).2 x) *
        (f1 (finProdFinEquiv.symm a).1 y * f2 (finProdFinEquiv.symm a).2 y))
      = ∑ p : Fin m1 × Fin m2, (f1 p.1 x * f2 p.2 x) * (f1 p.1 y * f2 p.2 y) :=
    Fintype.sum_equiv finProdFinEquiv.symm _ _ fun a => rfl
  dsimp only
  rw [hf1 x y, hf2 x y, Finset.sum_mul_sum, hstep, Fintype.sum_prod_type]
  refine Finset.sum_congr rfl fun a _ => Finset.sum_congr rfl fun b _ => by ring

theorem isFeatSum_smul {k : ℝ → ℝ → ℝ} {a : ℝ} (ha : 0 ≤ a) (h : IsFeatSum k) :
    IsFeatSum fun x y => a * k x y := by
  obtain ⟨m, f, hf⟩ := h
  refine ⟨m, fun i t => Real.sqrt a * f i t, fun x y => ?_⟩
  dsimp only
  rw [hf x y, Finset.mul_sum]
  refine Finset.sum_congr rfl fun i _ => ?_
  rw [show (Real.sqrt a * f i x) * (Real.sqrt a * f i y)
      = (Real.sqrt a * Real.sqrt a) * (f i x * f i y) from by ring,
    Real.mul_self_sqrt ha]

theorem isFeatSum_pow {k : ℝ → ℝ → ℝ} (h : IsFeatSum k) (m : ℕ) :
    IsFeatSum fun x y => k x y ^ m := by
  induction m with
  | zero => simpa using isFeatSum_const (zero_le_one (α := ℝ))
  | succ m ih => simpa [pow_succ] using isFeatSum_mul ih h

theorem qf_nonneg_of_isFeatSum {k : ℝ → ℝ → ℝ} (hk : IsFeatSum k) (n : ℕ)
    (x c : Fin n → ℝ) : 0 ≤ ∑ i, ∑ j, c i * c j * k (x i) (x j) := by
  obtain ⟨m, f, hf⟩ := hk
  have h1 : ∑ i, ∑ j, c i * c j * k (x i) (x j)
      = ∑ i, ∑ j, ∑ a, (c i * f a (x i)) * (c j * f a (x j)) := by
    refine Finset.sum_congr rfl fun i _ => Finset.sum_congr rfl fun j _ => ?_
    rw [hf, Finset.mul_sum]
    exact Finset.sum_congr rfl fun a _ => by ring
  have h2 : ∀ i : Fin n, ∑ j, ∑ a, (c i * f a (x i)) * (c j * f a (x j))
      = ∑ a, ∑ j, (c i * f a (x i)) * (c j * f a (x j)) := fun i => Finset.sum_comm
  have h3 : ∀ a : Fin m, ∑ i, ∑ j, (c i * f a (x i)) * (c j * f a (x j))
      = (∑ i, c i * f a (x i)) ^ 2 := by
    intro a
    rw [sq, Finset.sum_mul_sum]
  rw [h1]
  simp only [h2]
  rw [Finset.sum_comm]
  simp only [h3]
  exact Finset.sum_nonneg fun a _ => sq_nonneg _

theorem isPSDKernel_of_isFeatSum {k : ℝ → ℝ → ℝ} (h : IsFeatSum k) : IsPSDKernel k :=
  fun n x c => qf_nonneg_of_isFeatSum h n x c

theorem isPSDKernel_add {k1 k2 : ℝ → ℝ → ℝ} (h1 : IsPSDKernel k1) (h2 : IsPSDKernel k2) :
    IsPSDKernel fun x y => k1 x y + k2 x y := by
  intro n x c
  calc (0:ℝ) ≤ (∑ i, ∑ j, c i * c j * k1 (x i) (x j))
      + ∑ i, ∑ j, c i * c j * k2 (x i) (x j) := add_nonneg (h1 n x c) (h2 n x c)
    _ = ∑ i, ∑ j, c i * c j * (k1 (x i) (x j) + k2 (x i) (x j)) := by
        rw [← Finset.sum_add_distrib]
        refine Finset.sum_congr rfl fun i _ => ?_
        rw [← Finset.sum_add_distrib]
        exact Finset.sum_congr rfl fun j _ => by ring

theorem isPSDKernel_smul {k : ℝ → ℝ → ℝ} {a : ℝ} (ha : 0 ≤ a) (h : IsPSDKernel k) :
    IsPSDKernel fun x y => a * k x y := by
  intro n x c
  calc (0:ℝ) ≤ a * ∑ i, ∑ j, c i * c j * k (x i) (x j) := mul_nonneg ha (h n x c)
    _ = ∑ i, ∑ j, c i * c j * (a * k (x i) (x j)) := by
        rw [Finset.mul_sum]
        refine Finset.sum_congr rfl fun i _ => ?_
        rw [Finset.mul_sum]
        exact Finset.sum_congr rfl fun j _ => by ring

theorem isPSDKernel_conj {k : ℝ → ℝ → ℝ} (h : IsPSDKernel k) (g : ℝ → ℝ) :
    IsPSDKernel fun x y => g x * k x y * g y := by
  intro n x c
  calc (0:ℝ) ≤ ∑ i, ∑ j, (c i * g (x i)) * (c j * g (x j)) * k (x i) (x j) :=
      h n x fun i => c i * g (x i)
    _ = ∑ i, ∑ j, c i * c j * (g (x i) * k (x i) (x j) * g (x j)) :=
        Finset.sum_congr rfl fun i _ => Finset.sum_congr rfl fun j _ => by ring

theorem sum_pair_eq {n : ℕ} (F : Fin n → Fin n → ℝ) :
    ∑ p : Fin n × Fin n, F p.1 p.2 = ∑ i, ∑ j, F i j :=
  Fintype.sum_prod_type _

/-- The pointwise exponential of a finite feature-sum kernel is a PSD kernel:
its Gram quadratic form is a convergent series of the (nonnegative) quadratic
forms of the powers of the kernel. -/
theorem isPSDKernel_exp_of_isFeatSum {k : ℝ → ℝ → ℝ} (hk : IsFeatSum k) :
    IsPSDKernel fun x y => Real.exp (k x y) := by
  intro n x c
  have hexp : ∀ z : ℝ,
      Real.exp z = tsum (fun m : ℕ => z ^ m / (Nat.factorial m : ℝ)) := by
    intro z
    simp only [Real.exp_eq_exp_ℝ, NormedSpace.exp_eq_tsum_div]
  have hsum : ∀ p : Fin n × Fin n,
      Summable fun m : ℕ =>
        c p.1 * c p.2 * (k (x p.1) (x p.2) ^ m / (Nat.factorial m : ℝ)) :=
    fun p => (Real.summable_pow_div_factorial (k (x p.1) (x p.2))).mul_left _
  have key : ∑ i, ∑ j, c i * c j * Real.exp (k (x i) (x j))
      = ∑ p : Fin n × Fin n, tsum (fun m : ℕ =>
          c p.1 * c p.2 * (k (x p.1) (x p.2) ^ m / (Nat.factorial m : ℝ))) := by
    rw [← sum_pair_eq fun i j => c i * c j * Real.exp (k (x i) (x j))]
    refine Finset.sum_congr rfl fun p _ => ?_
    rw [hexp, tsum_mul_left]
  rw [key, ← tsum_sum fun p _ => hsum p]
  refine tsum_nonneg fun m => ?_
  have hqf := qf_nonneg_of_isFeatSum (isFeatSum_pow hk m) n x c
  have heq : ∑ p : Fin n × Fin n,
        c p.1 * c p.2 * (k (x p.1) (x p.2) ^ m / (Nat.factorial m : ℝ))
      = (∑ i, ∑ j, c i * c j * k (x i) (x j) ^ m) / (Nat.factorial m : ℝ) := by
    rw [sum_pair_eq fun i j => c i * c j * (k (x i) (x j) ^ m / (Nat.factorial m : ℝ)),
      Finset.sum_div]
    refine Finset.sum_congr rfl fun i _ => ?_
    rw [Finset.sum_div]
    exact Finset.sum_congr rfl fun j _ => by ring
  rw [heq]
  exact div_nonneg (by simpa using hqf) (Nat.cast_nonneg _)

/-- The Gaussian kernel `exp(-b (x-y)²)` with `b ≥ 0` is PSD: it is the
exponential of the feature kernel `2 b x y`, conjugated by `exp(-b t²)`. -/
theorem isPSDKernel_gauss {b : ℝ} (hb : 0 ≤ b) :
    IsPSDKernel fun x y => Real.exp (-(b * (x - y) ^ 2)) := by
  have hsplit : ∀ x y : ℝ, Real.exp (-(b * x ^ 2)) * Real.exp (2 * b * (x * y))
        * Real.exp (-(b * y ^ 2)) = Real.exp (-(b * (x - y) ^ 2)) := by
    intro x y
    rw [← Real.exp_add, ← Real.exp_add]
    congr 1
    ring
  have hfeat : IsFeatSum fun x y => 2 * b * (x * y) := by
    refine ⟨1, fun _ t => Real.sqrt (2 * b) * t, fun x y => ?_⟩
    rw [Fin.sum_univ_one]
    calc 2 * b * (x * y) = Real.sqrt (2 * b) * Real.sqrt (2 * b) * (x * y) := by
          rw [Real.mul_self_sqrt (by linarith)]
      _ = Real.sqrt (2 * b) * x * (Real.sqrt (2 * b) * y) := by ring
  have hconj := isPSDKernel_conj (isPSDKernel_exp_of_isFeatSum hfeat) fun t => Real.exp (-(b * t ^ 2))
  intro n x c
  calc (0:ℝ) ≤ ∑ i, ∑ j, c i * c j * (Real.exp (-(b * (x i) ^ 2))
        * Real.exp (2 * b * (x i * x j)) * Real.exp (-(b * (x j) ^ 2))) := hconj n x c
    _ = ∑ i, ∑ j, c i * c j * Real.exp (-(b * (x i - x j) ^ 2)) := by
        refine Finset.sum_congr rfl fun i _ => Finset.sum_congr rfl fun j _ => ?_
        rw [hsplit]

theorem isPSDKernel_congr {k k' : ℝ → ℝ → ℝ} (h : IsPSDKernel k)
    (he : ∀ x y, k' x y = k x y) : IsPSDKernel k' := by
  intro n x c
  calc (0:ℝ) ≤ ∑ i, ∑ j, c i * c j * k (x i) (x j) := h n x c
    _ = ∑ i, ∑ j, c i * c j * k' (x i) (x j) :=
      Finset.sum_congr rfl fun i _ => Finset.sum_congr rfl fun j _ => by rw [he]

/-- The squared-exponential kernel is PSD (for every real scale). -/
theorem isPSDKernel_expSquared (s : ℝ) :
    IsPSDKernel fun x y => expSquared s (x - y) := by
  have hb : (0:ℝ) ≤ (2 * s ^ 2)⁻¹ := by positivity
  refine isPSDKernel_congr (isPSDKernel_gauss hb) fun x y => ?_
  rw [expSquared]
  congr 1
  rw [div_eq_mul_inv]
  ring

/-- The exponential-sine-squared (periodic) kernel is PSD for `gamma ≥ 0`. -/
theorem isPSDKernel_expSineSquared (s : ℝ) {gamma : ℝ} (hg : 0 ≤ gamma) :
    IsPSDKernel fun x y => expSineSquared s gamma (x - y) := by
  have hfeat : IsFeatSum fun x y => gamma / 2 *
      (Real.cos (2 * Real.pi / s * x) * Real.cos (2 * Real.pi / s * y)
        + Real.sin (2 * Real.pi / s * x) * Real.sin (2 * Real.pi / s * y)) :=
    isFeatSum_smul (by linarith)
      (isFeatSum_add (isFeatSum_of_feature fun t => Real.cos (2 * Real.pi / s * t))
        (isFeatSum_of_feature fun t => Real.sin (2 * Real.pi / s * t)))
  have hpsd := isPSDKernel_smul (Real.exp_pos (-(gamma / 2))).le (isPSDKernel_exp_of_isFeatSum hfeat)
  refine isPSDKernel_congr hpsd fun x y => ?_
  rw [expSineSquared, ← Real.exp_add]
  congr 1
  rw [← Real.cos_sub,
    show 2 * Real.pi / s * x - 2 * Real.pi / s * y = 2 * (Real.pi * (x - y) / s) from by ring,
    Real.cos_two_mul]
  have hpyth := Real.sin_sq_add_cos_sq (Real.pi * (x - y) / s)
  linear_combination (-gamma) * hpyth

/-- The product of a squared-exponential and an exponential-sine-squared
kernel is PSD: it is a conjugated exponential of a sum of feature kernels. -/
theorem isPSDKernel_expSquared_mul_expSineSquared (s1 s2 : ℝ) {gamma : ℝ}
    (hg : 0 ≤ gamma) :
    IsPSDKernel fun x y => expSquared s1 (x - y) * expSineSquared s2 gamma (x - y) := by
  have hb : (0:ℝ) ≤ (2 * s1 ^ 2)⁻¹ := by positivity
  have hbfeat : IsFeatSum fun x y => 2 * (2 * s1 ^ 2)⁻¹ * (x * y) := by
    refine ⟨1, fun _ t => Real.sqrt (2 * (2 * s1 ^ 2)⁻¹) * t, fun x y => ?_⟩
    rw [Fin.sum_univ_one]
    calc 2 * (2 * s1 ^ 2)⁻¹ * (x * y)
        = Real.sqrt (2 * (2 * s1 ^ 2)⁻¹) * Real.sqrt (2 * (2 * s1 ^ 2)⁻¹) * (x * y) := by
          rw [Real.mul_self_sqrt (by positivity)]
      _ = Real.sqrt (2 * (2 * s1 ^ 2)⁻¹) * x * (Real.sqrt (2 * (2 * s1 ^ 2)⁻¹) * y) := by
          ring
  have hcfeat : IsFeatSum fun x y => gamma / 2 *
      (Real.cos (2 * Real.pi / s2 * x) * Real.cos (2 * Real.pi / s2 * y)
        + Real.sin (2 * Real.pi / s2 * x) * Real.sin (2 * Real.pi / s2 * y)) :=
    isFeatSum_smul (by linarith)
      (isFeatSum_add (isFeatSum_of_feature fun t => Real.cos (2 * Real.pi / s2 * t))
        (isFeatSum_of_feature fun t => Real.sin (2 * Real.pi / s2 * t)))
  have hexp := isPSDKernel_exp_of_isFeatSum (isFeatSum_add hbfeat hcfeat)
  have hconj := isPSDKernel_conj hexp fun t => Real.exp (-((2 * s1 ^ 2)⁻¹ * t ^ 2))
  have hpsd := isPSDKernel_smul (Real.exp_pos (-(gamma / 2))).le hconj
  refine isPSDKernel_congr hpsd fun x y => ?_
  rw [expSquared, expSineSquared, ← Real.exp_add, ← Real.exp_add, ← Real.exp_add,
    ← Real.exp_add]
  congr 1
  rw [← Real.cos_sub,
    show 2 * Real.pi / s2 * x - 2 * Real.pi / s2 * y
      = 2 * (Real.pi * (x - y) / s2) from by ring,
    Real.cos_two_mul]
  have hpyth := Real.sin_sq_add_cos_sq (Real.pi * (x - y) / s2)
  rw [show -((x - y) ^ 2) / (2 * s1 ^ 2) = -((2 * s1 ^ 2)⁻¹ * (x - y) ^ 2) from by
    rw [div_eq_mul_inv]; ring]
  linear_combination (-gamma) * hpyth

/-- Integrability of the scaled Gamma integrand `t^(α-1)·exp(-(R t))` on
`(0, ∞)` for `R ≥ 1`, by domination with the Gamma integrand itself. -/
theorem integrableOn_rpow_mul_exp_neg {alpha R : ℝ} (ha : 0 < alpha) (hR : 1 ≤ R) :
    MeasureTheory.IntegrableOn
      (fun t : ℝ => t ^ (alpha - 1) * Real.exp (-(R * t))) (Set.Ioi 0) := by
  have hbase := Real.GammaIntegral_convergent ha
  refine MeasureTheory.Integrable.mono hbase ?_ ?_
  · have hcont : ContinuousOn
        (fun t : ℝ => t ^ (alpha - 1) * Real.exp (-(R * t))) (Set.Ioi 0) := by
      refine ContinuousOn.mul ?_ ?_
      · exact ContinuousOn.rpow_const continuousOn_id fun t ht => Or.inl (ne_of_gt ht)
      · exact (Real.continuous_exp.comp (continuous_const.mul continuous_id).neg).continuousOn
    exact hcont.aestronglyMeasurable measurableSet_Ioi
  · refine (MeasureTheory.ae_restrict_iff' measurableSet_Ioi).2 (Filter.Eventually.of_forall ?_)
    intro t ht
    have ht0 : (0:ℝ) < t := ht
    have h2 : 0 ≤ t ^ (alpha - 1) * Real.exp (-(R * t)) :=
      mul_nonneg (Real.rpow_nonneg ht0.le _) (Real.exp_pos _).le
    rw [Real.norm_eq_abs, Real.norm_eq_abs, abs_of_nonneg h2,
      abs_of_nonneg (mul_nonneg (Real.exp_pos _).le (Real.rpow_nonneg ht0.le _))]
    rw [mul_comm (Real.exp (-t))]
    refine mul_le_mul_of_nonneg_left ?_ (Real.rpow_nonneg ht0.le _)
    exact Real.exp_le_exp.2 (by nlinarith)

/-- Euler-integral representation of `(1+u)^(-α)` for `α > 0`, `u ≥ 0`. -/
theorem rpow_neg_eq_integral {alpha u : ℝ} (ha : 0 < alpha) (hu : 0 ≤ u) :
    (1 + u) ^ (-alpha) = (Real.Gamma alpha)⁻¹ *
      ∫ t in Set.Ioi (0:ℝ), t ^ (alpha - 1) * Real.exp (-((1 + u) * t)) := by
  have hR : (0:ℝ) < 1 + u := by linarith
  rw [Real.integral_rpow_mul_exp_neg_mul_Ioi ha hR, one_div, Real.inv_rpow hR.le,
    ← Real.rpow_neg hR.le, mul_comm ((1 + u) ^ (-alpha)) (Real.Gamma alpha),
    ← mul_assoc, inv_mul_cancel₀ (Real.Gamma_pos_of_pos ha).ne', one_mul]

/-- The rational-quadratic kernel is PSD for `α > 0` and nonzero scale: it is
a Gamma-weighted mixture of Gaussian kernels. -/
theorem isPSDKernel_rationalQuadratic {alpha : ℝ} (s : ℝ) (ha : 0 < alpha)
    (hs : s ≠ 0) :
    IsPSDKernel fun x y => rationalQuadratic alpha s (x - y) := by
  intro n x c
  have hs2 : (0:ℝ) < s ^ 2 := lt_of_le_of_ne (sq_nonneg s) (Ne.symm (pow_ne_zero 2 hs))
  have hD : (0:ℝ) < 2 * alpha * s ^ 2 := by positivity
  have hu : ∀ i j : Fin n, 0 ≤ (x i - x j) ^ 2 / (2 * alpha * s ^ 2) :=
    fun i j => div_nonneg (sq_nonneg _) hD.le
  have hrep : ∀ i j : Fin n, rationalQuadratic alpha s (x i - x j)
      = (Real.Gamma alpha)⁻¹ * ∫ t in Set.Ioi (0:ℝ),
          t ^ (alpha - 1) * Real.exp (-((1 + (x i - x j) ^ 2 / (2 * alpha * s ^ 2)) * t)) := by
    intro i j
    rw [rationalQuadratic]
    exact rpow_neg_eq_integral ha (hu i j)
  have hint : ∀ p : Fin n × Fin n, MeasureTheory.IntegrableOn
      (fun t : ℝ => c p.1 * c p.2 * (t ^ (alpha - 1)
        * Real.exp (-((1 + (x p.1 - x p.2) ^ 2 / (2 * alpha * s ^ 2)) * t)))) (Set.Ioi 0) :=
    fun p => (integrableOn_rpow_mul_exp_neg ha (by linarith [hu p.1 p.2])).const_mul _
  have key : ∑ i, ∑ j, c i * c j * rationalQuadratic alpha s (x i - x j)
      = (Real.Gamma alpha)⁻¹ * ∫ t in Set.Ioi (0:ℝ),
          ∑ p : Fin n × Fin n, c p.1 * c p.2 * (t ^ (alpha - 1)
            * Real.exp (-((1 + (x p.1 - x p.2) ^ 2 / (2 * alpha * s ^ 2)) * t))) := by
    rw [MeasureTheory.integral_finset_sum Finset.univ fun p _ => hint p, Finset.mul_sum,
      ← sum_pair_eq fun i j => c i * c j * rationalQuadratic alpha s (x i - x j)]
    refine Finset.sum_congr rfl fun p _ => ?_
    rw [hrep p.1 p.2, MeasureTheory.integral_mul_left]
    ring
  rw [key]
  refine mul_nonneg (inv_nonneg.2 (Real.Gamma_nonneg_of_nonneg ha.le)) ?_
  refine MeasureTheory.setIntegral_nonneg measurableSet_Ioi fun t ht => ?_
  have ht0 : (0:ℝ) < t := ht
  have hg := isPSDKernel_gauss (b := t / (2 * alpha * s ^ 2))
    (div_nonneg ht0.le hD.le) n x c
  have hsplit : ∀ p : Fin n × Fin n,
      c p.1 * c p.2 * (t ^ (alpha - 1)
          * Real.exp (-((1 + (x p.1 - x p.2) ^ 2 / (2 * alpha * s ^ 2)) * t)))
        = (t ^ (alpha - 1) * Real.exp (-t)) *
          (c p.1 * c p.2
            * Real.exp (-(t / (2 * alpha * s ^ 2) * (x p.1 - x p.2) ^ 2))) := by
    intro p
    rw [show -((1 + (x p.1 - x p.2) ^ 2 / (2 * alpha * s ^ 2)) * t)
        = -t + -(t / (2 * alpha * s ^ 2) * (x p.1 - x p.2) ^ 2) from by ring,
      Real.exp_add]
    ring
  calc (0:ℝ) ≤ (t ^ (alpha - 1) * Real.exp (-t)) *
        ∑ i, ∑ j, c i * c j
          * Real.exp (-(t / (2 * alpha * s ^ 2) * (x i - x j) ^ 2)) :=
        mul_nonneg (mul_nonneg (Real.rpow_nonneg ht0.le _) (Real.exp_pos _).le) hg
    _ = ∑ p : Fin n × Fin n, c p.1 * c p.2 * (t ^ (alpha - 1)
          * Real.exp (-((1 + (x p.1 - x p.2) ^ 2 / (2 * alpha * s ^ 2)) * t))) := by
        rw [← sum_pair_eq fun i j => c i * c j
            * Real.exp (-(t / (2 * alpha * s ^ 2) * (x i - x j) ^ 2)), Finset.mul_sum]
        exact Finset.sum_congr rfl fun p _ => (hsplit p).symm

theorem posParam_pos (theta : Fin 13 → ℝ) (i : Fin 12) : 0 < posParam theta i :=
  Real.exp_pos _

/-- The composite kernel is an even function of the lag. -/
theorem kernelFn_even (theta : Fin 13 → ℝ) (r : ℝ) :
    kernelFn theta (-r) = kernelFn theta r := by
  simp only [kernelFn, expSquared, expSineSquared, rationalQuadratic, mul_neg,
    neg_div, Real.sin_neg, neg_sq]

/-- The composite kernel of `build_gp` is a PSD kernel for every `theta`:
each of the four summands is a nonnegative multiple of a PSD primitive. -/
theorem kernelFn_isPSD (theta : Fin 13 → ℝ) :
    IsPSDKernel fun x y => kernelFn theta (x - y) := by
  have h1 := isPSDKernel_smul (sq_nonneg (posParam theta 0)) (isPSDKernel_expSquared (posParam theta 1))
  have h2 := isPSDKernel_smul (sq_nonneg (posParam theta 2))
    (isPSDKernel_expSquared_mul_expSineSquared (posParam theta 3) (posParam theta 4)
      (posParam_pos theta 5).le)
  have h3 := isPSDKernel_smul (sq_nonneg (posParam theta 6))
    (isPSDKernel_rationalQuadratic (posParam theta 8) (posParam_pos theta 7)
      (posParam_pos theta 8).ne')
  have h4 := isPSDKernel_smul (sq_nonneg (posParam theta 9)) (isPSDKernel_expSquared (posParam theta 10))
  refine isPSDKernel_congr (isPSDKernel_add (isPSDKernel_add (isPSDKernel_add h1 h2) h3) h4) fun x y => ?_
  simp only [kernelFn]
  ring

/-- The Gram matrix of the composite kernel of `build_gp` is positive
semi-definite on every finite input set. -/
theorem gramMatrix_posSemidef {n : ℕ} (theta : Fin 13 → ℝ) (X : Fin n → ℝ) :
    (gramMatrix theta X).PosSemidef := by
  constructor
  · ext i j
    simp only [Matrix.conjTranspose_apply, gramMatrix, Matrix.of_apply, star_trivial]
    rw [show X j - X i = -(X i - X j) from by ring, kernelFn_even]
  · intro v
    have hv : star v = v := funext fun i => star_trivial _
    rw [hv]
    calc (0:ℝ) ≤ ∑ i, ∑ j, v i * v j * kernelFn theta (X i - X j) :=
        kernelFn_isPSD theta n X v
      _ = v ⬝ᵥ (gramMatrix theta X *ᵥ v) := by
        simp only [Matrix.dotProduct, Matrix.mulVec, gramMatrix, Matrix.of_apply]
        refine Finset.sum_congr rfl fun i _ => ?_
        rw [Finset.mul_sum]
        exact Finset.sum_congr rfl fun j _ => by ring

/-- C5: for every finite set of input points, the covariance (Gram) matrix
produced by the composite kernel built in `build_gp` is symmetric and
positive semi-definite, being formed only from primitive PSD kernels
combined by sum, nonnegative scalar multiple, and product. -/
theorem gramMatrix_symm_and_posSemidef {n : ℕ} (theta : Fin 13 → ℝ) (X : Fin n → ℝ) :
    (gramMatrix theta X).IsSymm ∧ (gramMatrix theta X).PosSemidef := by
  refine ⟨?_, gramMatrix_posSemidef theta X⟩
  ext i j
  simp only [Matrix.transpose_apply, gramMatrix, Matrix.of_apply]
  rw [show X j - X i = -(X i - X j) from by ring, kernelFn_even]

/-- C10: the diagonal noise variance of the model built by `build_gp` equals
`exp(theta[11])²`, hence is strictly positive (the exact `noise = 0`
configuration is unreachable through `theta`), and every training covariance
is the PSD Gram matrix plus this strictly positive multiple of the
identity. -/
theorem build_gp_noise_unreachable_zero {n : ℕ} (theta : Fin 13 → ℝ) (X : Fin n → ℝ) :
    (build_gp theta X).diag = Real.exp (theta 11) ^ 2 ∧
    0 < (build_gp theta X).diag ∧
    (build_gp theta X).diag ≠ 0 ∧
    covMatrix (build_gp theta X)
      = gramMatrix theta X + (build_gp theta X).diag • (1 : Matrix (Fin n) (Fin n) ℝ) ∧
    (gramMatrix theta X).PosSemidef := by
  refine ⟨?_, pow_pos (Real.exp_pos _) 2, ne_of_gt (pow_pos (Real.exp_pos _) 2), ?_,
    gramMatrix_posSemidef theta X⟩
  · show posParam theta 11 ^ 2 = Real.exp (theta 11) ^ 2
    rw [posParam, show ((11 : Fin 12).castSucc : Fin 13) = 11 from by decide]
  · ext i j
    simp only [covMatrix, build_gp, gramMatrix, Matrix.of_apply, Matrix.add_apply,
      Matrix.smul_apply, Matrix.one_apply, smul_eq_mul]
    by_cases hij : i = j <;> simp [hij]

theorem rawMask_eq (ts ys : List RawVal) :
    rawMask ts ys = (ts.zip ys).map sampleMask := by
  induction ts generalizing ys with
  | nil => cases ys <;> rfl
  | cons a as ih =>
      cases ys with
      | nil => rfl
      | cons b bs =>
          show sampleMask (a, b) :: rawMask as bs = _
          rw [List.zip_cons_cons, List.map_cons, ih bs]

theorem boolSelect_map_filter {α : Type} (l : List α) (f : α → Bool) :
    boolSelect l (l.map f) = l.filter f := by
  induction l with
  | nil => rfl
  | cons a as ih =>
      by_cases h : f a <;> simp [boolSelect, List.filter_cons, h, ih]

theorem boolSelect_zip {α β : Type} (a : List α) :
    ∀ (b : List β) (m : List Bool), a.length = b.length →
      (boolSelect a m).zip (boolSelect b m) = boolSelect (a.zip b) m := by
  induction a with
  | nil =>
      intro b m h
      have hb : b = [] := List.length_eq_zero.1 h.symm
      subst hb
      cases m <;> rfl
  | cons x as ih =>
      intro b m h
      cases b with
      | nil => simp at h
      | cons y bs =>
          have hlen : as.length = bs.length := by simpa using h
          cases m with
          | nil => rfl
          | cons mb ms =>
              by_cases hm : mb <;>
                (simp [boolSelect, hm, List.zip_cons_cons, List.zip];
                  exact ih bs ms hlen)

theorem boolSelect_length_congr {α β : Type} (a : List α) :
    ∀ (b : List β) (m : List Bool), a.length = b.length →
      (boolSelect a m).length = (boolSelect b m).length := by
  induction a with
  | nil =>
      intro b m h
      have hb : b = [] := List.length_eq_zero.1 h.symm
      subst hb
      rfl
  | cons x as ih =>
      intro b m h
      cases b with
      | nil => simp at h
      | cons y bs =>
          have hlen : as.length = bs.length := by simpa using h
          cases m with
          | nil => rfl
          | cons mb ms =>
              by_cases hm : mb <;> simp [boolSelect, hm, ih bs ms hlen]

theorem strideAux_zip {α β : Type} (a : List α) :
    ∀ (k : ℕ) (b : List β), a.length = b.length →
      strideAux k (a.zip b) = (strideAux k a).zip (strideAux k b) := by
  induction a with
  | nil =>
      intro k b h
      have hb : b = [] := List.length_eq_zero.1 h.symm
      subst hb
      cases k <;> rfl
  | cons x as ih =>
      intro k b h
      cases b with
      | nil => simp at h
      | cons y bs =>
          have hlen : as.length = bs.length := by simpa using h
          cases k with
          | zero =>
              simp [List.zip_cons_cons, List.zip, strideAux]
              exact ih 3 bs hlen
          | succ k =>
              simp [List.zip_cons_cons, List.zip, strideAux]
              exact ih k bs hlen

/-- C8: the training dataset handed to the fit consists of exactly every 4th
element (stride 4, starting at index 0) of the raw (t, y) pairs that are
finite in both coordinates and satisfy t < 1996, preserving their original
order, with the same selection mask applied to t and y. -/
theorem training_data_selection (ts ys : List RawVal) (hlen : ts.length = ys.length) :
    (trainT ts ys).zip (trainY ts ys) = specTrainPairs ts ys := by
  have hsel : (boolSelect ts (rawMask ts ys)).length
      = (boolSelect ys (rawMask ts ys)).length :=
    boolSelect_length_congr ts ys (rawMask ts ys) hlen
  rw [trainT, trainY, specTrainPairs, stride4, stride4, stride4,
    ← strideAux_zip _ 0 _ hsel, boolSelect_zip ts ys (rawMask ts ys) hlen,
    rawMask_eq, boolSelect_map_filter]

/-- Witness for C8 at a concrete raw dataset (one non-finite sample, one
out-of-range time). -/
theorem training_data_selection_witness :
    ([some 1990, none, some 1997, some 1991, some (1992:ℝ)] : List RawVal).length
      = ([some 1, some 2, some 3, some 4, some (5:ℝ)] : List RawVal).length ∧
    (trainT [some 1990, none, some 1997, some 1991, some 1992]
        [some 1, some 2, some 3, some 4, some 5]).zip
      (trainY [some 1990, none, some 1997, some 1991, some 1992]
        [some 1, some 2, some 3, some 4, some 5])
      = specTrainPairs [some 1990, none, some 1997, some 1991, some 1992]
        [some 1, some 2, some 3, some 4, some 5] :=
  ⟨rfl, training_data_selection _ _ rfl⟩

/-- C9: with the diagonal noise term set to zero, conditioning the GP on the
observations y and evaluating the posterior at the training inputs
themselves returns y as the posterior mean: the noiseless posterior
interpolates the training data (exactly, over ℝ). -/
theorem noiseless_posterior_interpolates {n : ℕ} (theta : Fin 13 → ℝ)
    (X y : Fin n → ℝ) (hdet : IsUnit (gramMatrix theta X).det) :
    conditionMean { build_gp theta X with diag := 0 } y X = y := by
  have hcov : covMatrix { build_gp theta X with diag := 0 } = gramMatrix theta X := by
    ext i j
    simp [covMatrix, build_gp, gramMatrix]
  funext s
  simp only [conditionMean, hcov]
  show theta 12 + (fun j => kernelFn theta (X s - X j)) ⬝ᵥ
      ((gramMatrix theta X)⁻¹ *ᵥ fun i => y i - theta 12) = y s
  have hmv : (fun j => kernelFn theta (X s - X j)) ⬝ᵥ
      ((gramMatrix theta X)⁻¹ *ᵥ fun i => y i - theta 12)
      = (gramMatrix theta X *ᵥ ((gramMatrix theta X)⁻¹ *ᵥ fun i => y i - theta 12)) s := rfl
  rw [hmv, Matrix.mulVec_mulVec, Matrix.mul_nonsing_inv _ hdet, Matrix.one_mulVec]
  ring

/-- Witness for C9: a one-point dataset at the zero hyperparameter vector,
where the Gram matrix is the invertible 1×1 matrix [4]. -/
theorem noiseless_posterior_interpolates_witness :
    IsUnit (gramMatrix (fun _ => 0) (fun _ : Fin 1 => 0)).det ∧
    conditionMean { build_gp (fun _ => 0) (fun _ : Fin 1 => 0) with diag := 0 }
      (fun _ => 5) (fun _ : Fin 1 => 0) = fun _ => 5 := by
  have hdet : (gramMatrix (fun _ => (0:ℝ)) (fun _ : Fin 1 => 0)).det = 4 := by
    rw [Matrix.det_fin_one]
    show kernelFn (fun _ => 0) (0 - 0) = 4
    norm_num [kernelFn, posParam, expSquared, expSineSquared, rationalQuadratic,
      Real.exp_zero, Real.one_rpow]
  have hu : IsUnit (gramMatrix (fun _ => (0:ℝ)) (fun _ : Fin 1 => 0)).det := by
    rw [hdet]
    exact isUnit_iff_ne_zero.2 (by norm_num)
  exact ⟨hu, noiseless_posterior_interpolates _ _ _ hu⟩

end GPMaunaLoa

namespace GPMaunaLoa

/-- C1: `build_gp` constructs exactly the composite kernel
`a0²·SE(ℓ0) + a1²·SE(ℓ1)·Per(p,γ) + a2²·RQ(α,ℓ2) + a3²·SE(ℓ3)` with the
amplitudes and scales the exponentials of `theta[0..10]` in order, and adds
the independent noise variance `σ² = exp(theta[11])²` only to the diagonal
entries of the training covariance matrix. -/
theorem build_gp_cov_eq_spec {n : ℕ} (theta : Fin 13 → ℝ) (X : Fin n → ℝ) :
    covMatrix (build_gp theta X) = specTrainCov theta X := by
  have cs : ∀ (k : Fin 12) (m : Fin 13), k.castSucc = m →
      posParam theta k = Real.exp (theta m) := by
    intro k m hkm; rw [posParam, hkm]
  have p0 := cs 0 0 (by decide)
  have p1 := cs 1 1 (by decide)
  have p2 := cs 2 2 (by decide)
  have p3 := cs 3 3 (by decide)
  have p4 := cs 4 4 (by decide)
  have p5 := cs 5 5 (by decide)
  have p6 := cs 6 6 (by decide)
  have p7 := cs 7 7 (by decide)
  have p8 := cs 8 8 (by decide)
  have p9 := cs 9 9 (by decide)
  have p10 := cs 10 10 (by decide)
  have p11 := cs 11 11 (by decide)
  ext i j
  simp only [covMatrix, specTrainCov, build_gp, kernelFn, specKernel, Matrix.of_apply,
    p0, p1, p2, p3, p4, p5, p6, p7, p8, p9, p10, p11]

/-- C2: the hyperparameter vector has fixed length 13; `build_gp`
exponentiates exactly the entries `0..11`, so every kernel parameter and the
noise are strictly positive for any real input, and the last entry
`theta[12]` is used untransformed as the mean offset. -/
theorem build_gp_structural_positivity {n : ℕ} (theta : Fin 13 → ℝ) (X : Fin n → ℝ) :
    (build_gp theta X).mean = theta 12 ∧
    (build_gp theta X).diag = Real.exp (theta 11) ^ 2 ∧
    (∀ i : Fin 12, 0 < posParam theta i) ∧
    0 < (build_gp theta X).diag := by
  refine ⟨rfl, ?_, fun i => Real.exp_pos _, ?_⟩
  · show posParam theta 11 ^ 2 = Real.exp (theta 11) ^ 2
    rw [posParam, show ((11 : Fin 12).castSucc : Fin 13) = 11 from by decide]
  · exact pow_pos (Real.exp_pos _) 2

/-- C4: for every `theta` and fixed dataset `(X, y)`, the objective returns
the pair (negative marginal log-likelihood of `y` under the model built from
`theta`, derivative of that negative log-likelihood with respect to the full
unconstrained `theta`), the gradient being the derivative of the entire
exponentiate → build-kernel → covariance → log-likelihood pipeline. -/
theorem obj_returns_value_and_gradient {n : ℕ} (theta : Fin 13 → ℝ) (X y : Fin n → ℝ) :
    obj theta X y =
      (-(log_probability (build_gp theta X) y),
        fderiv ℝ (fun th => neg_log_likelihood th X y) theta) := rfl

/-- C6: the log-probability computed by the model is unchanged when the same
permutation is applied simultaneously to the inputs `X` and the observations
`y`. -/
theorem nll_permutation_invariant {n : ℕ} (theta : Fin 13 → ℝ) (X y : Fin n → ℝ)
    (e : Equiv.Perm (Fin n)) :
    neg_log_likelihood theta (X ∘ e) (y ∘ e) = neg_log_likelihood theta X y := by
  set M := covMatrix (build_gp theta X) with hM
  have hcov : covMatrix (build_gp theta (X ∘ e)) = M.submatrix e e := by
    ext i j
    simp only [hM, covMatrix, build_gp, Matrix.of_apply, Matrix.submatrix_apply,
      Function.comp_apply, EmbeddingLike.apply_eq_iff_eq]
  have hdet : (M.submatrix e e).det = M.det := Matrix.det_submatrix_equiv_self e M
  have hinv : (M.submatrix e e)⁻¹ = M⁻¹.submatrix e e := by
    have h1 : M.submatrix e e = Matrix.reindex e.symm e.symm M := by
      rw [Matrix.reindex_apply, Equiv.symm_symm]
    have h2 : M⁻¹.submatrix e e = Matrix.reindex e.symm e.symm M⁻¹ := by
      rw [Matrix.reindex_apply, Equiv.symm_symm]
    rw [h1, h2, Matrix.inv_reindex]
  have hmean : (build_gp theta (X ∘ e)).mean = (build_gp theta X).mean := rfl
  have hquad : ((fun i => y i - (build_gp theta X).mean) ∘ e) ⬝ᵥ
        ((M⁻¹.submatrix e e) *ᵥ ((fun i => y i - (build_gp theta X).mean) ∘ e)) =
      (fun i => y i - (build_gp theta X).mean) ⬝ᵥ
        (M⁻¹ *ᵥ fun i => y i - (build_gp theta X).mean) := by
    rw [Matrix.submatrix_mulVec_equiv]
    have hre : ((fun i => y i - (build_gp theta X).mean) ∘ ⇑e) ∘ ⇑e.symm =
        fun i => y i - (build_gp theta X).mean := by
      funext i; simp
    rw [hre, Matrix.comp_equiv_dotProduct_comp_equiv]
  simp only [neg_log_likelihood, log_probability, hcov, hdet, hinv, hmean, ← hM]
  rw [show (fun i => (y ∘ ⇑e) i - (build_gp theta X).mean) =
      (fun i => y i - (build_gp theta X).mean) ∘ ⇑e from rfl, hquad]

/-- C7: model construction and likelihood evaluation are deterministic pure
functions of `(theta, X, y)`: rebuilding the model from equal data and
recomputing yields an identical likelihood value. -/
theorem model_rebuild_deterministic {n : ℕ} (theta1 theta2 : Fin 13 → ℝ)
    (X1 X2 y1 y2 : Fin n → ℝ) (ht : theta1 = theta2) (hX : X1 = X2) (hy : y1 = y2) :
    log_probability (build_gp theta1 X1) y1 = log_probability (build_gp theta2 X2) y2 := by
  rw [ht, hX, hy]

/-- Witness for C7 at a concrete input. -/
theorem model_rebuild_deterministic_witness :
    ((fun _ : Fin 13 => (0 : ℝ)) = fun _ => 0) ∧
    log_probability (build_gp (fun _ => 0) (fun _ : Fin 1 => 0)) (fun _ => 0) =
      log_probability (build_gp (fun _ => 0) (fun _ : Fin 1 => 0)) (fun _ => 0) :=
  ⟨rfl, model_rebuild_deterministic (fun _ => 0) (fun _ => 0) (fun _ : Fin 1 => 0)
    (fun _ : Fin 1 => 0) (fun _ => 0) (fun _ => 0) rfl rfl rfl⟩

end GPMaunaLoa
